import Mathlib

/-!
Verification development for `src/scraper.py` (CNAScraper).

Text is embedded as `List Char` (Python `str`), so that positional
operations (slicing, searching) are plain list operations.

The repository's own code (`get_structured_urls`, `scrape_and_clean_content`,
`extract_chapter_number`, `main`) is translated directly from the source.
Library calls (BeautifulSoup tree queries, `urljoin`, the `re` regexes and
`langchain`'s `RecursiveCharacterTextSplitter`) are shallowly embedded:
the document trees the source queries are modelled as an explicit tree
type, and each library call becomes a Lean function whose doc comment
states what it models.
-/

/-- Index of the first occurrence of `pat` in `l` (the position semantics of
Python's `in` / leftmost regex search). `firstOcc [] l = some 0`. -/
def firstOcc (pat : List Char) : List Char → Option Nat
  | [] => if pat.isPrefixOf ([] : List Char) then some 0 else none
  | c :: cs => if pat.isPrefixOf (c :: cs) then some 0 else (firstOcc pat cs).map (· + 1)

/-- Boolean substring test: models Python's `pat in s` for strings. -/
def containsSub (pat l : List Char) : Bool := (firstOcc pat l).isSome

/-- Fuel-driven worker for `splitKeep`: cut `l` at each occurrence of `sep`,
keeping the separator attached to the end of the piece before it. -/
def splitKeepF (sep : List Char) : Nat → List Char → List (List Char)
  | 0, l => [l]
  | fuel + 1, l =>
    match firstOcc sep l with
    | none => [l]
    | some i =>
      if sep.isEmpty then [l]
      else l.take (i + sep.length) :: splitKeepF sep fuel (l.drop (i + sep.length))

/-- Modelled from the spec: step 2 of §4.3 — split the text at a separator,
"the separator is treated as a break point, not necessarily discarded";
we retain each separator at the end of the piece it terminates, so that the
pieces concatenate back to the input (the spec's reconstruction invariant). -/
def splitKeep (sep l : List Char) : List (List Char) := splitKeepF sep l.length l

/-- Modelled from the spec: step 3 of §4.3 — greedily pack consecutive
segments into a buffer while the total stays within the size budget `S`;
on overflow flush the buffer as a chunk and seed the next buffer with the
trailing slice of the flushed chunk of length up to `O` (the overlap). -/
def mergeLoop (S O : Nat) (buf : List Char) : List (List Char) → List (List Char)
  | [] => [buf]
  | seg :: rest =>
    if buf.length + seg.length ≤ S then mergeLoop S O (buf ++ seg) rest
    else buf :: mergeLoop S O (buf.drop (buf.length - O) ++ seg) rest

/-- Modelled from the spec: packing of the full segment sequence (§4.3 step 3);
an empty segment list yields no chunks. -/
def mergeSegs (S O : Nat) : List (List Char) → List (List Char)
  | [] => []
  | seg :: rest => mergeLoop S O seg rest

/-- Modelled from the spec: steps 1, 2, 4, 5 of §4.3 — recursive splitting.
A text within the budget is a single segment (step 1); otherwise the first
separator of the priority list that occurs in the text cuts it (step 2);
segments still over budget are refined with the remaining, finer separators
(step 5), and a segment with no separators left is kept as-is, oversized
(step 4, "the size budget is advisory for indivisible units"). -/
def fragments (S : Nat) : List (List Char) → List Char → List (List Char)
  | [], text => [text]
  | sep :: rest, text =>
    if text.length ≤ S then [text]
    else if (firstOcc sep text).isSome then
      (splitKeep sep text).flatMap fun seg =>
        if seg.length ≤ S then [seg] else fragments S rest seg
    else fragments S rest text

/-- Modelled from the spec: the Separator-Prioritized Splitter of §4.3
(the `RecursiveCharacterTextSplitter` of `langchain` configured in
`src/scraper.py` lines 116-120 — the library's own code is not part of this
repository): recursive separator splitting followed by greedy packing with
overlap seeding. -/
def splitTextWith (seps : List (List Char)) (S O : Nat) (text : List Char) : List (List Char) :=
  mergeSegs S O (fragments S seps text)

/-- The separator priority list configured in `src/scraper.py` line 117:
`["\n\n", "\n", ". ", "? ", "! "]`. -/
def cnaSeparators : List (List Char) :=
  ["\n\n".toList, "\n".toList, ". ".toList, "? ".toList, "! ".toList]

/-- The configured splitter instance of `src/scraper.py` lines 116-120:
`chunk_size=1000`, `chunk_overlap=150`, separators `cnaSeparators`; this is
`text_splitter.split_text` as invoked at line 134. -/
def split_text (text : List Char) : List (List Char) :=
  splitTextWith cnaSeparators 1000 150 text

/-- Concatenate a chunk list, removing from every chunk but the first the
overlap it shares with its predecessor (`min O (length of predecessor)`
characters, the length of the seeded overlap slice): helper carrying the
predecessor chunk. -/
def reconAux (O : Nat) (prev : List Char) : List (List Char) → List Char
  | [] => []
  | c :: cs => c.drop (min O prev.length) ++ reconAux O c cs

/-- Concatenation of the chunks with the inter-chunk overlap removed —
the reconstruction described by the spec's round-trip invariant. -/
def reconstructOverlap (O : Nat) : List (List Char) → List Char
  | [] => []
  | c :: cs => c ++ reconAux O c cs

-- ### Splitter lemmas

theorem splitKeepF_flatten (sep : List Char) :
    ∀ (fuel : Nat) (l : List Char), (splitKeepF sep fuel l).flatten = l := by
  intro fuel
  induction fuel with
  | zero => intro l; simp [splitKeepF]
  | succ n ih =>
    intro l
    simp only [splitKeepF]
    cases hocc : firstOcc sep l with
    | none => simp
    | some i =>
      by_cases hsep : sep.isEmpty
      · simp [hsep]
      · simp [hsep, ih, List.take_append_drop]

theorem splitKeepF_ne_nil (sep : List Char) (fuel : Nat) (l : List Char) :
    splitKeepF sep fuel l ≠ [] := by
  cases fuel with
  | zero => simp [splitKeepF]
  | succ n =>
    simp only [splitKeepF]
    cases firstOcc sep l with
    | none => simp
    | some i =>
      by_cases hsep : sep.isEmpty <;> simp [hsep]

theorem splitKeep_flatten (sep l : List Char) : (splitKeep sep l).flatten = l :=
  splitKeepF_flatten sep l.length l

theorem flatten_flatMap_of (f : List Char → List (List Char)) :
    ∀ (segs : List (List Char)), (∀ seg ∈ segs, (f seg).flatten = seg) →
      (segs.flatMap f).flatten = segs.flatten := by
  intro segs
  induction segs with
  | nil => intro _; simp
  | cons s rest ih =>
    intro h
    simp only [List.flatMap_cons, List.flatten_append, List.flatten_cons]
    rw [h s (by simp), ih (fun seg hseg => h seg (by simp [hseg]))]

theorem fragments_flatten (S : Nat) :
    ∀ (seps : List (List Char)) (text : List Char), (fragments S seps text).flatten = text := by
  intro seps
  induction seps with
  | nil => intro text; simp [fragments]
  | cons sep rest ih =>
    intro text
    simp only [fragments]
    by_cases hlen : text.length ≤ S
    · simp [hlen]
    · simp only [hlen, if_false]
      by_cases hocc : (firstOcc sep text).isSome
      · simp only [hocc, if_true]
        rw [flatten_flatMap_of]
        · exact splitKeep_flatten sep text
        · intro seg _
          by_cases hs : seg.length ≤ S
          · simp [hs]
          · simp [hs, ih]
      · simp [hocc, ih]

theorem reconAux_mergeLoop (S O : Nat) :
    ∀ (segs : List (List Char)) (buf prev : List Char),
      min O prev.length ≤ buf.length →
      reconAux O prev (mergeLoop S O buf segs) = buf.drop (min O prev.length) ++ segs.flatten := by
  intro segs
  induction segs with
  | nil => intro buf prev _; simp [mergeLoop, reconAux]
  | cons seg rest ih =>
    intro buf prev hk
    simp only [mergeLoop]
    by_cases hfit : buf.length + seg.length ≤ S
    · simp only [hfit, if_true]
      rw [ih (buf ++ seg) prev (by simp; omega)]
      rw [List.drop_append_of_le_length hk]
      simp
    · simp only [hfit, if_false, reconAux]
      have hov : (buf.drop (buf.length - O)).length = min O buf.length := by
        simp; omega
      rw [ih (buf.drop (buf.length - O) ++ seg) buf (by simp; omega)]
      rw [show min O buf.length = (buf.drop (buf.length - O)).length from hov.symm]
      rw [List.drop_left]
      simp

theorem reconstruct_mergeLoop (S O : Nat) :
    ∀ (segs : List (List Char)) (buf : List Char),
      reconstructOverlap O (mergeLoop S O buf segs) = buf ++ segs.flatten := by
  intro segs
  induction segs with
  | nil => intro buf; simp [mergeLoop, reconstructOverlap, reconAux]
  | cons seg rest ih =>
    intro buf
    simp only [mergeLoop]
    by_cases hfit : buf.length + seg.length ≤ S
    · simp only [hfit, if_true]
      rw [ih (buf ++ seg)]
      simp
    · simp only [hfit, if_false, reconstructOverlap]
      have hov : (buf.drop (buf.length - O)).length = min O buf.length := by
        simp; omega
      rw [reconAux_mergeLoop S O rest (buf.drop (buf.length - O) ++ seg) buf (by simp; omega)]
      rw [show min O buf.length = (buf.drop (buf.length - O)).length from hov.symm]
      rw [List.drop_left]
      simp

theorem reconstruct_mergeSegs (S O : Nat) (segs : List (List Char)) :
    reconstructOverlap O (mergeSegs S O segs) = segs.flatten := by
  cases segs with
  | nil => simp [mergeSegs, reconstructOverlap]
  | cons s rest =>
    simp only [mergeSegs]
    rw [reconstruct_mergeLoop]
    simp

/-- Claim C1: for every input text, concatenating the Splitter's chunks in
order, after removing from each chunk other than the first the overlap it
shares with its predecessor, reconstructs the original input text exactly
(splitter with `S = 1000`, `O = 150`, and the default separator list of
`src/scraper.py` lines 116-120). -/
theorem split_text_reconstructs (text : List Char) :
    reconstructOverlap 150 (split_text text) = text := by
  unfold split_text splitTextWith
  rw [reconstruct_mergeSegs, fragments_flatten]

/-- Claim C3: for every input text whose length is at most the size budget
`S = 1000`, the Splitter returns exactly one chunk, and that chunk is the
input text unchanged. -/
theorem split_text_short (text : List Char) (h : text.length ≤ 1000) :
    split_text text = [text] := by
  unfold split_text splitTextWith cnaSeparators
  simp only [fragments, h, if_true]
  simp [mergeSegs, mergeLoop]

/-- Witness for C3 at the two-character input `"ok"`. -/
theorem split_text_short_witness :
    ("ok".toList.length ≤ 1000) ∧ split_text "ok".toList = ["ok".toList] :=
  ⟨by decide, split_text_short "ok".toList (by decide)⟩

theorem mergeLoop_ne_nil (S O : Nat) :
    ∀ (segs : List (List Char)) (buf : List Char), mergeLoop S O buf segs ≠ [] := by
  intro segs
  induction segs with
  | nil => intro buf; simp [mergeLoop]
  | cons seg rest ih =>
    intro buf
    simp only [mergeLoop]
    by_cases hfit : buf.length + seg.length ≤ S
    · simp only [hfit, if_true]
      exact ih _
    · simp [hfit]

theorem mergeLoop_single (S O : Nat) :
    ∀ (segs : List (List Char)) (buf c : List Char),
      mergeLoop S O buf segs = [c] → (segs = [] ∧ c = buf) ∨ c.length ≤ S := by
  intro segs
  induction segs with
  | nil =>
    intro buf c h
    simp only [mergeLoop] at h
    exact Or.inl ⟨rfl, (List.cons.injEq .. ▸ h).1.symm⟩
  | cons seg rest ih =>
    intro buf c h
    simp only [mergeLoop] at h
    by_cases hfit : buf.length + seg.length ≤ S
    · simp only [hfit, if_true] at h
      rcases ih (buf ++ seg) c h with ⟨_, hc⟩ | hle
      · subst hc
        right
        simp
        omega
      · exact Or.inr hle
    · simp only [hfit, if_false] at h
      have := mergeLoop_ne_nil S O rest (buf.drop (buf.length - O) ++ seg)
      cases hm : mergeLoop S O (buf.drop (buf.length - O) ++ seg) rest with
      | nil => exact absurd hm this
      | cons a b =>
        rw [hm] at h
        simp at h

theorem mergeSegs_single (S O : Nat) (segs : List (List Char)) (c : List Char)
    (h : mergeSegs S O segs = [c]) : segs = [c] ∨ c.length ≤ S := by
  cases segs with
  | nil => simp [mergeSegs] at h
  | cons s rest =>
    simp only [mergeSegs] at h
    rcases mergeLoop_single S O rest s c h with ⟨hr, hc⟩ | hle
    · subst hr; subst hc; exact Or.inl rfl
    · exact Or.inr hle

theorem fragments_ne_nil (S : Nat) :
    ∀ (seps : List (List Char)) (text : List Char), fragments S seps text ≠ [] := by
  intro seps
  induction seps with
  | nil => intro text; simp [fragments]
  | cons sep rest ih =>
    intro text
    simp only [fragments]
    by_cases hlen : text.length ≤ S
    · simp [hlen]
    · simp only [hlen, if_false]
      by_cases hocc : (firstOcc sep text).isSome
      · simp only [hocc, if_true]
        have hsk := splitKeepF_ne_nil sep text.length text
        cases hs : splitKeep sep text with
        | nil => exact absurd hs hsk
        | cons p ps =>
          simp only [List.flatMap_cons, ne_eq]
          intro hnil
          rcases List.append_eq_nil.mp hnil with ⟨hp, _⟩
          by_cases hpl : p.length ≤ S
          · simp [hpl] at hp
          · simp only [hpl, if_false] at hp
            exact absurd hp (ih p)
      · simp [hocc, ih]

theorem flatMap_two_ne_single (f : List Char → List (List Char)) (x y : List Char)
    (zs : List (List Char)) (hf : ∀ s ∈ x :: y :: zs, f s ≠ []) (c : List Char) :
    (x :: y :: zs).flatMap f ≠ [c] := by
  intro h
  have hx := hf x (by simp)
  have hy := hf y (by simp)
  have hlen : ((x :: y :: zs).flatMap f).length = 1 := by rw [h]; simp
  simp only [List.flatMap_cons, List.length_append] at hlen
  have h1 : 1 ≤ (f x).length := List.length_pos.mpr hx
  have h2 : 1 ≤ (f y).length := List.length_pos.mpr hy
  omega

theorem fragments_single (S : Nat) :
    ∀ (seps : List (List Char)) (text c : List Char),
      fragments S seps text = [c] → c = text := by
  intro seps
  induction seps with
  | nil =>
    intro text c h
    simp only [fragments] at h
    simp at h
    exact h.symm
  | cons sep rest ih =>
    intro text c h
    simp only [fragments] at h
    by_cases hlen : text.length ≤ S
    · simp only [hlen, if_true] at h
      simp at h
      exact h.symm
    · simp only [hlen, if_false] at h
      by_cases hocc : (firstOcc sep text).isSome
      · simp only [hocc, if_true] at h
        by_cases hsep : sep.isEmpty
        · -- an empty separator is never cut on: splitKeepF returns [text]
          have hsk : splitKeep sep text = [text] := by
            unfold splitKeep
            cases hf : text.length with
            | zero =>
              simp [splitKeepF]
            | succ n =>
              simp only [splitKeepF]
              cases firstOcc sep text with
              | none => rfl
              | some i => simp [hsep]
          rw [hsk] at h
          simp only [List.flatMap_cons, List.flatMap_nil, List.append_nil] at h
          simp only [hlen, if_false] at h
          exact ih text c h
        · -- a real separator that occurs cuts the text into at least two pieces
          exfalso
          have hpos : 0 < text.length := by
            rcases Nat.eq_zero_or_pos text.length with h0 | hpp
            · omega
            · exact hpp
          obtain ⟨n, hn⟩ : ∃ n, text.length = n + 1 := ⟨text.length - 1, by omega⟩
          have hsk : ∃ p q qs, splitKeep sep text = p :: q :: qs := by
            unfold splitKeep
            rw [hn]
            simp only [splitKeepF]
            cases hoc : firstOcc sep text with
            | none => rw [hoc] at hocc; simp at hocc
            | some i =>
              simp only [hsep, Bool.false_eq_true, if_false]
              cases hrec : splitKeepF sep n (text.drop (i + sep.length)) with
              | nil => exact absurd hrec (splitKeepF_ne_nil sep n _)
              | cons q qs => exact ⟨_, q, qs, rfl⟩
          rcases hsk with ⟨p, q, qs, hsk⟩
          rw [hsk] at h
          exact flatMap_two_ne_single _ p q qs
            (by
              intro s _
              by_cases hs : s.length ≤ S
              · simp [hs]
              · simp only [hs, if_false]
                exact fragments_ne_nil S rest s) c h
      · simp only [hocc, if_false] at h
        exact ih text c h

theorem fragments_of_le (S : Nat) (seps : List (List Char)) (text : List Char)
    (h : text.length ≤ S) : fragments S seps text = [text] := by
  cases seps with
  | nil => simp [fragments]
  | cons sep rest => simp [fragments, h]

/-- Claim C9: the Splitter is idempotent on its own single chunks — whenever
`split_text` returns exactly one chunk, feeding that chunk back through
`split_text` (same `S = 1000`, `O = 150`, same separator list) returns that
same chunk unchanged. -/
theorem split_text_idempotent_single (t c : List Char) (h : split_text t = [c]) :
    split_text c = [c] := by
  unfold split_text splitTextWith at h ⊢
  rcases mergeSegs_single 1000 150 _ c h with hfr | hle
  · have hct : c = t := fragments_single 1000 cnaSeparators t c hfr
    subst hct
    rw [hfr]
    simp [mergeSegs, mergeLoop]
  · rw [fragments_of_le 1000 cnaSeparators c hle]
    simp [mergeSegs, mergeLoop]

/-- Witness for C9 at the input `"hi"`, which is its own single chunk. -/
theorem split_text_idempotent_single_witness :
    split_text "hi".toList = ["hi".toList] ∧ split_text "hi".toList = ["hi".toList] :=
  ⟨split_text_short "hi".toList (by decide),
   split_text_idempotent_single "hi".toList "hi".toList
     (split_text_short "hi".toList (by decide))⟩

-- ### Document tree model (the parsed-HTML abstraction that BeautifulSoup
-- provides to `src/scraper.py`; tag names, class lists, the `href`
-- attribute and text content are the only features the source consults)

/-- An element of the parsed document tree. `text` is the element's own
directly contained string, preceding its children in document order. -/
inductive Elem where
  | mk (tag : String) (classes : List String) (href : Option (List Char))
       (text : List Char) (children : List Elem)

def Elem.tag : Elem → String
  | .mk t _ _ _ _ => t

def Elem.classes : Elem → List String
  | .mk _ c _ _ _ => c

def Elem.href : Elem → Option (List Char)
  | .mk _ _ h _ _ => h

def Elem.ownText : Elem → List Char
  | .mk _ _ _ t _ => t

def Elem.children : Elem → List Elem
  | .mk _ _ _ _ ch => ch

mutual
/-- All proper descendants of an element in document (preorder) order:
the search space of BeautifulSoup's `find` / `find_all`. -/
def descendants : Elem → List Elem
  | .mk _ _ _ _ ch => descendantsL ch
def descendantsL : List Elem → List Elem
  | [] => []
  | e :: es => e :: (descendants e ++ descendantsL es)
end

/-- An element together with all its descendants. -/
def allElems (e : Elem) : List Elem := e :: descendants e

/-- Models BeautifulSoup `e.find_all(tag)`: all descendants with the given
tag, in document order. -/
def findAllTag (tag : String) (e : Elem) : List Elem :=
  (descendants e).filter fun d => d.tag = tag

/-- Models BeautifulSoup `e.find(tag, class_=cls)`: the first descendant
with the given tag whose class list contains `cls`. -/
def findClass (tag cls : String) (e : Elem) : Option Elem :=
  ((descendants e).filter fun d => d.tag = tag ∧ cls ∈ d.classes).head?

mutual
/-- The element's strings in document order (own text, then each child's
strings recursively): what `get_text` concatenates. -/
def elemTexts : Elem → List (List Char)
  | .mk _ _ _ t ch => t :: elemTextsL ch
def elemTextsL : List Elem → List (List Char)
  | [] => []
  | e :: es => elemTexts e ++ elemTextsL es
end

def isWs (c : Char) : Bool := c.isWhitespace

/-- Strip leading and trailing whitespace (Python `str.strip`, over the
ASCII whitespace the inputs here use). -/
def trimWs (l : List Char) : List Char :=
  ((l.dropWhile isWs).reverse.dropWhile isWs).reverse

/-- Models `e.get_text(strip=True)`: each string stripped, concatenated. -/
def getTextStrip (e : Elem) : List Char :=
  ((elemTexts e).map trimWs).flatten

/-- Join a list of strings with a separator (Python `sep.join`). -/
def joinWith (sep : List Char) : List (List Char) → List Char
  | [] => []
  | [x] => x
  | x :: y :: rest => x ++ sep ++ joinWith sep (y :: rest)

/-- Models `e.get_text(separator=' ', strip=True)`: each string stripped,
empty ones dropped, the rest joined with single spaces. -/
def getTextSpace (e : Elem) : List Char :=
  joinWith [' '] (((elemTexts e).map trimWs).filter fun t => ¬ t.isEmpty)

-- ### URL resolution (models `urllib.parse.urljoin` on the address shapes
-- this scraper meets: already-absolute references, root-relative paths and
-- plain relative paths; `..` segments and query/fragment handling are not
-- exercised by the source and are not modelled)

def schemeSep : List Char := "://".toList

/-- The part of `base` up to and including its last `'/'` (empty when
`base` has no slash). -/
def upToLastSlash (l : List Char) : List Char :=
  (l.reverse.dropWhile fun c => c ≠ '/').reverse

/-- The `scheme://host` part of an absolute address. -/
def schemeHost (base : List Char) : List Char :=
  match firstOcc schemeSep base with
  | none => []
  | some i => base.take (i + 3) ++ ((base.drop (i + 3)).takeWhile fun c => c ≠ '/')

/-- Models `urljoin(base, href)` for the cases above. -/
def urljoin (base href : List Char) : List Char :=
  if href.isEmpty then base
  else if (firstOcc schemeSep href).isSome then href
  else if href.head? = some '/' then schemeHost base ++ href
  else upToLastSlash base ++ href

-- ### Hierarchical TOC Walker (`get_structured_urls`, src/scraper.py 8-58)

/-- One entry of the Walker's output: the dict
`{'url': full_url, 'part_title': current_part_title}` of line 44-47. -/
structure UrlEntry where
  url : List Char
  part_title : List Char
deriving DecidableEq

/-- The `'/chapter/'` marker of line 42. -/
def chapterMark : List Char := "/chapter/".toList

/-- The `'/front-matter/'` marker of line 42. -/
def frontMatterMark : List Char := "/front-matter/".toList

/-- The part-name element of lines 34-35: the first `div.toc-part-header`
descendant's first `span.part-text` descendant. -/
def partSpan (li : Elem) : Option Elem :=
  match findClass "div" "toc-part-header" li with
  | none => none
  | some d => findClass "span" "part-text" d

/-- Lines 33-36: when the list item carries the `part` class and the
part-name span is present, the current part title becomes that span's
stripped text; in every other case it is left unchanged. -/
def updatePart (li : Elem) (cur : List Char) : List Char :=
  if ("part" : String) ∈ li.classes then
    match partSpan li with
    | some sp => getTextStrip sp
    | none => cur
  else cur

/-- The test of line 42: `href and ('/chapter/' in href or '/front-matter/'
in href)` — the reference must be non-empty (Python truthiness) and contain
one of the two markers. It inspects the raw reference. -/
def hrefAccepted (h : List Char) : Bool :=
  !h.isEmpty && (containsSub chapterMark h || containsSub frontMatterMark h)

/-- Lines 41-47 for one anchor: admit it when its `href` attribute is
present and `hrefAccepted`; the emitted entry resolves the reference
against the base address. -/
def admitAnchor (base part : List Char) (a : Elem) : Option UrlEntry :=
  match a.href with
  | none => none
  | some h => if hrefAccepted h then some ⟨urljoin base h, part⟩ else none

/-- Lines 39-47: all anchors anywhere under the list item, in document
order, filtered through `admitAnchor`. -/
def collectLinks (base part : List Char) (li : Elem) : List UrlEntry :=
  (findAllTag "a" li).filterMap (admitAnchor base part)

/-- The loop of lines 31-47: walk the top-level list items carrying the
current part title forward, collecting admitted links (the part update of a
list item applies to that item's own links). -/
def walkAux (base : List Char) : List Elem → List Char → List UrlEntry
  | [], _ => []
  | li :: rest, cur =>
    collectLinks base (updatePart li cur) li ++ walkAux base rest (updatePart li cur)

/-- Line 31: `toc.find_all('li', recursive=False)` — only direct children. -/
def topLevelItems (toc : Elem) : List Elem :=
  toc.children.filter fun e => e.tag = "li"

/-- The candidate list `structured_urls` as built by lines 28-47, before
deduplication; the initial part title is the `"General"` default of line 29. -/
def candidates (base : List Char) (toc : Elem) : List UrlEntry :=
  walkAux base (topLevelItems toc) "General".toList

/-- Lines 49-55: drop every entry whose url was already seen, first
occurrence wins, order preserved (`seen` is the growing seen-set). -/
def dedupKeepFirst : List UrlEntry → List (List Char) → List UrlEntry
  | [], _ => []
  | r :: rs, seen =>
    if r.url ∈ seen then dedupKeepFirst rs seen
    else r :: dedupKeepFirst rs (r.url :: seen)

/-- The Walker `get_structured_urls` of src/scraper.py lines 8-58, given the
already-located TOC tree (the fetch of lines 14-26 is the external
collaborator; its failure cases return `[]` before this point). -/
def get_structured_urls (base : List Char) (toc : Elem) : List UrlEntry :=
  dedupKeepFirst (candidates base toc) []

/-- Modelled from the spec: "keeping only the first occurrence, preserving
overall encounter order" (§4.1 step 5) as a direct recursive description —
keep the head, delete its url from the tail, recurse. -/
def keepFirstOccurrences : List UrlEntry → List UrlEntry
  | [] => []
  | r :: rs => r :: keepFirstOccurrences (rs.filter fun x => x.url ≠ r.url)
termination_by l => l.length
decreasing_by
  simp only [List.length_cons]
  exact Nat.lt_succ_of_le (List.length_filter_le _ _)

-- ### Content Normalizer and Pipeline Orchestrator
-- (`scrape_and_clean_content` lines 60-91, `extract_chapter_number`
-- lines 93-98, `main` lines 100-158)

/-- Outcome of the external fetch+parse collaborator for one address:
a transport error (`requests` exception, lines 64-69) or a parsed page. -/
inductive FetchResult where
  | fail
  | ok (doc : Elem)

mutual
/-- Collapse every run of whitespace to a single space:
models `re.sub(r'\s+', ' ', s)` (over the ASCII whitespace used here). -/
def collapseWs : List Char → List Char
  | [] => []
  | c :: cs => if c.isWhitespace then ' ' :: skipWs cs else c :: collapseWs cs
/-- Inside a whitespace run: skip the rest of the run, then continue. -/
def skipWs : List Char → List Char
  | [] => []
  | c :: cs => if c.isWhitespace then skipWs cs else c :: collapseWs cs
end

/-- Line 89: `re.sub(r'\s+', ' ', full_text).strip()`. -/
def normalizeWs (l : List Char) : List Char := trimWs (collapseWs l)

/-- Lines 77-78: the `h1.entry-title` text, or the sentinel. -/
def titleOf (sec : Elem) : List Char :=
  match findClass "h1" "entry-title" sec with
  | some t => getTextStrip t
  | none => "No Title Found".toList

/-- Lines 80-89: optional learning-objectives block first, then every
paragraph, joined with single spaces and whitespace-normalized. -/
def cleanedTextOf (sec : Elem) : List Char :=
  let objectives :=
    match findClass "div" "textbox--learning-objectives" sec with
    | some lo => [getTextSpace lo]
    | none => []
  normalizeWs (joinWith [' '] (objectives ++ (findAllTag "p" sec).map getTextSpace))

/-- The Content Normalizer `scrape_and_clean_content` of lines 60-91.
The Python `(None, None)` returns (fetch failure, line 69; missing
`section.chapter` container, line 75) are modelled as `none` over the pair:
the two components are always both `None` or both present. -/
def scrape_and_clean_content (fetch : List Char → FetchResult) (url : List Char) :
    Option (List Char × List Char) :=
  match fetch url with
  | .fail => none
  | .ok doc =>
    match findClass "section" "chapter" doc with
    | none => none
    | some sec => some (titleOf sec, cleanedTextOf sec)

/-- Character class of the regex `[\w-]` of line 95: word characters
(letters, digits, underscore — `\w` modelled over ASCII) and the hyphen. -/
def isWordOrHyphen (c : Char) : Bool := c.isAlphanum || c = '_' || c = '-'

/-- The `"N/A"` sentinel of line 98. -/
def naSentinel : List Char := "N/A".toList

/-- `chapterMark` reversed, for suffix analysis. -/
def revChapterMark : List Char := chapterMark.reverse

/-- Drop one leading character when it is `'/'` (the reversed view of the
regex's optional trailing slash `/?$`). -/
def chopSlash : List Char → List Char
  | [] => []
  | c :: rest => if c = '/' then rest else c :: rest

/-- The maximal trailing run of word-or-hyphen characters, once an optional
final `'/'` is discarded — read from the reversed url. -/
def tailRun (url : List Char) : List Char :=
  (chopSlash url.reverse).takeWhile isWordOrHyphen

/-- The `extract_chapter_number` of lines 93-98: the semantics of
`re.search(r'/chapter/([\w-]+)/?$', url)`, returning group 1 or `"N/A"`.
Because the pattern is anchored at the end of the string and `[\w-]+`
cannot contain `'/'`, a match exists exactly when, after discarding one
optional final `'/'`, the string ends in `'/chapter/'` followed by a
non-empty run of word-or-hyphen characters; group 1 is that run (it is
maximal, since the character before it must be the marker's final `'/'`).
The function reads the url from the right accordingly. -/
def extract_chapter_number (url : List Char) : List Char :=
  if (tailRun url).isEmpty then naSentinel
  else if revChapterMark.isPrefixOf ((chopSlash url.reverse).drop (tailRun url).length) then
    (tailRun url).reverse
  else naSentinel

/-- The claim's description of the chapter identifier, rendered literally:
"the trailing path segment consisting of alphanumerics and hyphens
extracted from a chapter-style path", `"N/A"` otherwise. It differs from
the source only in the character class: no underscore. -/
def isSlugChar (c : Char) : Bool := c.isAlphanum || c = '-'

/-- Claim C5's mapping as stated (alphanumerics and hyphens only): the
trailing path segment of such characters after a `'/chapter/'` marker at
the end of the path (optional final slash), else the sentinel. -/
def specChapterId (url : List Char) : List Char :=
  if ((chopSlash url.reverse).takeWhile isSlugChar).isEmpty then naSentinel
  else if revChapterMark.isPrefixOf
      ((chopSlash url.reverse).drop ((chopSlash url.reverse).takeWhile isSlugChar).length) then
    ((chopSlash url.reverse).takeWhile isSlugChar).reverse
  else naSentinel

/-- One Chunk Record of lines 136-146. `chunk_index` is the per-location
running index from which line 144 formats the string `chunk_id`. -/
structure ChunkRec where
  page_content : List Char
  part_title : List Char
  chapter_number : List Char
  title : List Char
  source_url : List Char
  chunk_index : Nat
deriving DecidableEq

/-- The body of the per-location loop of `main`, lines 122-146: normalize,
skip when the content is falsy (`if not content`, line 129 — `None` or the
empty string), otherwise split and attach metadata. -/
def process_location (fetch : List Char → FetchResult) (info : UrlEntry) : List ChunkRec :=
  match scrape_and_clean_content fetch info.url with
  | none => []
  | some (title, content) =>
    if content.isEmpty then []
    else
      (split_text content).enum.map fun ic =>
        ⟨ic.2, info.part_title, extract_chapter_number info.url, title, info.url, ic.1⟩

/-- The aggregated `all_chunks` list of `main`, lines 114-146: every
location processed in order, each contributing its chunks. -/
def all_chunks (fetch : List Char → FetchResult) (urls : List UrlEntry) : List ChunkRec :=
  urls.flatMap (process_location fetch)

-- ### Walker lemmas

theorem dedupKeepFirst_sub :
    ∀ (l : List UrlEntry) (seen : List (List Char)) (r : UrlEntry),
      r ∈ dedupKeepFirst l seen → r ∈ l := by
  intro l
  induction l with
  | nil => intro seen r h; simp [dedupKeepFirst] at h
  | cons x xs ih =>
    intro seen r h
    simp only [dedupKeepFirst] at h
    by_cases hm : x.url ∈ seen
    · rw [if_pos hm] at h
      exact List.mem_cons_of_mem x (ih seen r h)
    · rw [if_neg hm] at h
      rcases List.mem_cons.mp h with h | h
      · exact h ▸ List.mem_cons_self x xs
      · exact List.mem_cons_of_mem x (ih _ r h)

theorem dedupKeepFirst_nodup :
    ∀ (l : List UrlEntry) (seen : List (List Char)),
      ((dedupKeepFirst l seen).map UrlEntry.url).Nodup ∧
        ∀ u ∈ (dedupKeepFirst l seen).map UrlEntry.url, u ∉ seen := by
  intro l
  induction l with
  | nil => intro seen; simp [dedupKeepFirst]
  | cons x xs ih =>
    intro seen
    simp only [dedupKeepFirst]
    by_cases hm : x.url ∈ seen
    · rw [if_pos hm]
      exact ih seen
    · rw [if_neg hm]
      obtain ⟨hnd, hout⟩ := ih (x.url :: seen)
      simp only [List.map_cons, List.nodup_cons]
      refine ⟨⟨fun hmem => (hout _ hmem) (List.mem_cons_self _ _), hnd⟩, ?_⟩
      intro u hu
      rcases List.mem_cons.mp hu with hu | hu
      · exact hu ▸ hm
      · exact fun huseen => (hout u hu) (List.mem_cons_of_mem _ huseen)

theorem keepFirstOccurrences_cons (r : UrlEntry) (rs : List UrlEntry) :
    keepFirstOccurrences (r :: rs) =
      r :: keepFirstOccurrences (rs.filter fun x => x.url ≠ r.url) := by
  rw [keepFirstOccurrences.eq_def]

theorem dedupKeepFirst_eq_keepFirst :
    ∀ (l : List UrlEntry) (seen : List (List Char)),
      dedupKeepFirst l seen = keepFirstOccurrences (l.filter fun r => r.url ∉ seen) := by
  intro l
  induction l with
  | nil => intro seen; simp [dedupKeepFirst, keepFirstOccurrences]
  | cons x xs ih =>
    intro seen
    simp only [dedupKeepFirst, List.filter_cons]
    by_cases hm : x.url ∈ seen
    · rw [if_pos hm, if_neg (by simp [hm])]
      exact ih seen
    · rw [if_neg hm, if_pos (by simp [hm])]
      rw [keepFirstOccurrences_cons]
      rw [ih (x.url :: seen)]
      congr 1
      rw [List.filter_filter]
      congr 1
      apply List.filter_congr
      intro r _
      by_cases h1 : r.url = x.url <;> by_cases h2 : r.url ∈ seen <;>
        simp [h1, h2, List.mem_cons]

/-- Claim C2: for every TOC tree, the Walker's output has pairwise distinct
urls, and it equals the first-occurrence-preserving sublist of the
candidate list produced by the in-order walk of the tree (the record kept
for each url is the first one encountered, and the surviving records stay
in encounter order). -/
theorem get_structured_urls_first_occurrences (base : List Char) (toc : Elem) :
    get_structured_urls base toc = keepFirstOccurrences (candidates base toc) ∧
      ((get_structured_urls base toc).map UrlEntry.url).Nodup := by
  constructor
  · unfold get_structured_urls
    rw [dedupKeepFirst_eq_keepFirst]
    congr 1
    apply List.filter_eq_self.mpr
    intro r _
    simp
  · exact (dedupKeepFirst_nodup (candidates base toc) []).1

theorem descendants_eq_children (e : Elem) : descendants e = descendantsL e.children := by
  cases e
  rfl

theorem mem_descendantsL_of_mem :
    ∀ (es : List Elem) (e : Elem), e ∈ es → e ∈ descendantsL es := by
  intro es
  induction es with
  | nil => intro e h; simp at h
  | cons x xs ih =>
    intro e h
    rw [descendantsL]
    rcases List.mem_cons.mp h with h | h
    · exact h ▸ List.mem_cons_self _ _
    · exact List.mem_cons_of_mem _ (List.mem_append_right _ (ih e h))

theorem admitAnchor_some (base part : List Char) (a : Elem) (r : UrlEntry)
    (hr : admitAnchor base part a = some r) :
    ∃ hx, a.href = some hx ∧ hrefAccepted hx = true ∧ r = ⟨urljoin base hx, part⟩ := by
  cases hh : a.href with
  | none => simp [admitAnchor, hh] at hr
  | some hx =>
    by_cases hacc : hrefAccepted hx
    · refine ⟨hx, rfl, hacc, ?_⟩
      simp only [admitAnchor, hh, hacc, if_true] at hr
      exact (Option.some.inj hr).symm
    · simp [admitAnchor, hh, hacc] at hr

theorem collectLinks_part (base part : List Char) (li : Elem) :
    ∀ r ∈ collectLinks base part li, r.part_title = part := by
  intro r hr
  unfold collectLinks at hr
  rcases List.mem_filterMap.mp hr with ⟨a, _, ha⟩
  obtain ⟨hx, _, _, hre⟩ := admitAnchor_some base part a r ha
  rw [hre]

theorem walkAux_part_const (base : List Char) :
    ∀ (lis : List Elem) (cur : List Char),
      (∀ li ∈ lis, ("part" : String) ∉ li.classes) →
      ∀ r ∈ walkAux base lis cur, r.part_title = cur := by
  intro lis
  induction lis with
  | nil => intro cur _ r hr; simp [walkAux] at hr
  | cons li rest ih =>
    intro cur hcl r hr
    have hup : updatePart li cur = cur := by
      unfold updatePart
      rw [if_neg (hcl li (List.mem_cons_self _ _))]
    simp only [walkAux, hup] at hr
    rcases List.mem_append.mp hr with hr | hr
    · exact collectLinks_part base cur li r hr
    · exact ih cur (fun x hx => hcl x (List.mem_cons_of_mem _ hx)) r hr

/-- Claim C7: for every TOC tree containing no part markers (no element
anywhere carries the `part` class), every Location Record the Walker emits
has `part_title` equal to the default sentinel `"General"`. -/
theorem walker_default_part (base : List Char) (toc : Elem)
    (h : ∀ e ∈ allElems toc, ("part" : String) ∉ e.classes) :
    ∀ r ∈ get_structured_urls base toc, r.part_title = "General".toList := by
  intro r hr
  have hr2 : r ∈ candidates base toc := dedupKeepFirst_sub _ _ r hr
  refine walkAux_part_const base (topLevelItems toc) "General".toList ?_ r hr2
  intro li hli
  apply h
  unfold allElems
  apply List.mem_cons_of_mem
  rw [descendants_eq_children]
  exact mem_descendantsL_of_mem _ li (List.mem_filter.mp hli).1

/-- A TOC tree with one top-level item, one admitted chapter link and no
part markers anywhere. -/
def tocNoParts : Elem :=
  .mk "ol" ["toc"] none [] [.mk "li" [] none [] [.mk "a" [] (some "/chapter/1-1/".toList) [] []]]

/-- The seed address hard-coded at src/scraper.py line 104. -/
def ceBase : List Char := "https://wtcs.pressbooks.pub/nurseassist/".toList

/-- Witness for C7: on `tocNoParts` the Walker emits records and each one
carries the `"General"` sentinel. -/
theorem walker_default_part_witness :
    (∀ e ∈ allElems tocNoParts, ("part" : String) ∉ e.classes) ∧
      ∀ r ∈ get_structured_urls ceBase tocNoParts, r.part_title = "General".toList :=
  ⟨by decide, walker_default_part ceBase tocNoParts (by decide)⟩

/-- Claim C8: `current_part_title` is updated only by a top-level item that
both carries the `part` marker and contains an extractable part-name text
(a `div.toc-part-header` descendant holding a `span.part-text`); whenever
either is missing — in particular for a part marker with no extractable
text — the previous value is kept. -/
theorem updatePart_keeps_previous (li : Elem) (cur : List Char)
    (h : ¬ (("part" : String) ∈ li.classes ∧ (partSpan li).isSome)) :
    updatePart li cur = cur := by
  unfold updatePart
  by_cases hm : ("part" : String) ∈ li.classes
  · rw [if_pos hm]
    cases hs : partSpan li with
    | none => rfl
    | some sp => exact absurd ⟨hm, by rw [hs]; rfl⟩ h
  · rw [if_neg hm]

/-- A top-level item marked `part` but with no part-name span at all. -/
def bareMarkerItem : Elem := .mk "li" ["part"] none [] []

/-- Witness for C8: the bare part marker leaves the carried title alone. -/
theorem updatePart_keeps_previous_witness :
    (¬ (("part" : String) ∈ bareMarkerItem.classes ∧ (partSpan bareMarkerItem).isSome)) ∧
      updatePart bareMarkerItem "General".toList = "General".toList :=
  ⟨by decide, updatePart_keeps_previous bareMarkerItem "General".toList (by decide)⟩

-- ### Claim C4: admission happens on the raw reference, not the resolved one

/-- An anchor whose raw reference `chapter/1-1/` does not contain the
`'/chapter/'` marker, though its resolution against the seed address does. -/
def relAnchor : Elem := .mk "a" [] (some "chapter/1-1/".toList) [] []

/-- A TOC tree whose only anchor is `relAnchor`, under a top-level item. -/
def relToc : Elem := .mk "ol" ["toc"] none [] [.mk "li" [] none [] [relAnchor]]

/-- Claim C4 counterexample: the claim says an anchor is admitted iff its
resolved absolute address matches a pattern. Here the only anchor of the
tree resolves to an address containing `'/chapter/'`, yet the Walker admits
nothing, because src/scraper.py line 42 tests the raw `href` before the
`urljoin` of line 43. -/
theorem admission_not_on_resolved_cex :
    (topLevelItems relToc).flatMap (findAllTag "a") = [relAnchor] ∧
      containsSub chapterMark (urljoin ceBase "chapter/1-1/".toList) = true ∧
      get_structured_urls ceBase relToc = [] :=
  ⟨rfl, by decide, by decide⟩

/-- Claim C4 (amended): an anchor under a top-level item is admitted as a
candidate Location iff its raw reference is present, non-empty, and
contains the `'/chapter/'` or `'/front-matter/'` marker — the pattern test
precedes resolution; the admitted record's address is the reference
resolved against the base, and every other link yields nothing. -/
theorem hrefAccepted_iff (h : List Char) :
    hrefAccepted h = true ↔
      h ≠ [] ∧ (containsSub chapterMark h = true ∨ containsSub frontMatterMark h = true) := by
  unfold hrefAccepted
  cases h with
  | nil => simp
  | cons c cs => simp

theorem admitAnchor_iff_raw (base part : List Char) (a : Elem) :
    ((∃ r, admitAnchor base part a = some r) ↔
      ∃ h, a.href = some h ∧ h ≠ [] ∧
        (containsSub chapterMark h = true ∨ containsSub frontMatterMark h = true)) ∧
      ∀ r, admitAnchor base part a = some r →
        ∃ h, a.href = some h ∧ r = ⟨urljoin base h, part⟩ := by
  constructor
  · constructor
    · rintro ⟨r, hr⟩
      obtain ⟨hx, hhx, hacc, _⟩ := admitAnchor_some base part a r hr
      exact ⟨hx, hhx, (hrefAccepted_iff hx).mp hacc⟩
    · rintro ⟨h, hh, hne, hor⟩
      refine ⟨⟨urljoin base h, part⟩, ?_⟩
      simp [admitAnchor, hh, (hrefAccepted_iff h).mpr ⟨hne, hor⟩]
  · intro r hr
    obtain ⟨hx, hhx, _, hre⟩ := admitAnchor_some base part a r hr
    exact ⟨hx, hhx, hre⟩

/-- An anchor with an admissible raw reference. -/
def absAnchor : Elem := .mk "a" [] (some "/chapter/2-2/".toList) [] []

/-- Witness for the amended C4: `absAnchor` is admitted, via the
right-to-left direction of the characterization. -/
theorem admitAnchor_iff_raw_witness :
    ∃ r, admitAnchor ceBase "General".toList absAnchor = some r :=
  (admitAnchor_iff_raw ceBase "General".toList absAnchor).1.mpr
    ⟨"/chapter/2-2/".toList, rfl, by decide, Or.inl (by decide)⟩

-- ### Claims C6 and C10: per-location failure handling

/-- Claim C6: for a location whose fetch fails or whose `section.chapter`
content container is absent, the Normalizer returns the modelled
`(None, None)` (`none` over the pair) rather than raising, the orchestrator
skips the location — it contributes zero Chunk Records — and every
subsequent location is processed unchanged. Freedom from escaping
exceptions is expressed by the embedding's totality: both failure modes
flow into ordinary return values. -/
theorem failed_location_skipped (fetch : List Char → FetchResult) (info : UrlEntry)
    (rest : List UrlEntry)
    (h : fetch info.url = .fail ∨
      ∃ doc, fetch info.url = .ok doc ∧ findClass "section" "chapter" doc = none) :
    scrape_and_clean_content fetch info.url = none ∧
      process_location fetch info = [] ∧
      all_chunks fetch (info :: rest) = all_chunks fetch rest := by
  have hs : scrape_and_clean_content fetch info.url = none := by
    rcases h with h | ⟨doc, hd, hc⟩
    · simp [scrape_and_clean_content, h]
    · simp [scrape_and_clean_content, hd, hc]
  have hp : process_location fetch info = [] := by
    unfold process_location
    rw [hs]
  refine ⟨hs, hp, ?_⟩
  unfold all_chunks
  rw [List.flatMap_cons, hp]
  simp

/-- A fetch collaborator for which every address fails. -/
def failFetch : List Char → FetchResult := fun _ => .fail

/-- A location fed to the orchestrator in witnesses. -/
def wEntry : UrlEntry := ⟨"u".toList, "General".toList⟩

/-- Witness for C6 under the always-failing fetch. -/
theorem failed_location_skipped_witness :
    (failFetch wEntry.url = .fail ∨
      ∃ doc, failFetch wEntry.url = .ok doc ∧ findClass "section" "chapter" doc = none) ∧
      scrape_and_clean_content failFetch wEntry.url = none ∧
      process_location failFetch wEntry = [] ∧
      all_chunks failFetch (wEntry :: []) = all_chunks failFetch [] :=
  ⟨Or.inl rfl, failed_location_skipped failFetch wEntry [] (Or.inl rfl)⟩

/-- Claim C10: a location whose content container is present but whose
cleaned text is empty is treated exactly like a missing container. The
Normalizer does return a title for it, but the empty string is falsy at
line 129, so the location is skipped: the title is discarded (no Chunk
Record is built from it), the location contributes zero Chunk Records, and
subsequent locations still run. -/
theorem empty_content_skipped (fetch : List Char → FetchResult) (info : UrlEntry)
    (rest : List UrlEntry) (doc sec : Elem)
    (h1 : fetch info.url = .ok doc)
    (h2 : findClass "section" "chapter" doc = some sec)
    (h3 : cleanedTextOf sec = []) :
    scrape_and_clean_content fetch info.url = some (titleOf sec, []) ∧
      process_location fetch info = [] ∧
      all_chunks fetch (info :: rest) = all_chunks fetch rest := by
  have hs : scrape_and_clean_content fetch info.url = some (titleOf sec, []) := by
    simp [scrape_and_clean_content, h1, h2, h3]
  have hp : process_location fetch info = [] := by
    unfold process_location
    rw [hs]
    simp
  refine ⟨hs, hp, ?_⟩
  unfold all_chunks
  rw [List.flatMap_cons, hp]
  simp

/-- A content container that is present but empty: no learning-objectives
block and no paragraphs, hence an empty cleaned text. -/
def emptySection : Elem := .mk "section" ["chapter"] none [] []

/-- A page holding only the empty content container. -/
def emptyPage : Elem := .mk "html" [] none [] [emptySection]

/-- A fetch collaborator returning the empty page for every address. -/
def emptyPageFetch : List Char → FetchResult := fun _ => .ok emptyPage

/-- Witness for C10 on the empty content container. -/
theorem empty_content_skipped_witness :
    (emptyPageFetch wEntry.url = .ok emptyPage ∧
      findClass "section" "chapter" emptyPage = some emptySection ∧
      cleanedTextOf emptySection = []) ∧
      scrape_and_clean_content emptyPageFetch wEntry.url = some (titleOf emptySection, []) ∧
      process_location emptyPageFetch wEntry = [] ∧
      all_chunks emptyPageFetch (wEntry :: []) = all_chunks emptyPageFetch [] :=
  ⟨⟨rfl, rfl, rfl⟩, empty_content_skipped emptyPageFetch wEntry [] emptyPage emptySection rfl rfl rfl⟩

-- ### Claim C5: chapter-identifier extraction

theorem takeWhile_mem_sat (p : Char → Bool) :
    ∀ (l : List Char) (c : Char), c ∈ l.takeWhile p → p c = true := by
  intro l
  induction l with
  | nil => intro c h; simp at h
  | cons x xs ih =>
    intro c h
    rw [List.takeWhile_cons] at h
    by_cases hx : p x
    · rw [if_pos hx] at h
      rcases List.mem_cons.mp h with h | h
      · exact h ▸ hx
      · exact ih c h
    · rw [if_neg hx] at h
      simp at h

theorem takeWhile_append_all (p : Char → Bool) :
    ∀ (a : List Char) (c : Char) (b : List Char),
      (∀ x ∈ a, p x = true) → p c = false →
      (a ++ c :: b).takeWhile p = a := by
  intro a
  induction a with
  | nil =>
    intro c b _ hc
    simp [List.takeWhile_cons, hc]
  | cons x xs ih =>
    intro c b ha hc
    simp only [List.cons_append, List.takeWhile_cons, ha x (List.mem_cons_self _ _), if_true]
    rw [ih c b (fun y hy => ha y (List.mem_cons_of_mem _ hy)) hc]

theorem drop_length_takeWhile (p : Char → Bool) (l : List Char) :
    l.drop (l.takeWhile p).length = l.dropWhile p := by
  calc l.drop (l.takeWhile p).length
      = (l.takeWhile p ++ l.dropWhile p).drop (l.takeWhile p).length := by
        rw [List.takeWhile_append_dropWhile]
    _ = l.dropWhile p := List.drop_left _ _

theorem chopSlash_cons_slash (rest : List Char) : chopSlash ('/' :: rest) = rest := by
  simp [chopSlash]

theorem chopSlash_cons_ne (c : Char) (rest : List Char) (h : ¬ c = '/') :
    chopSlash (c :: rest) = c :: rest := by
  simp [chopSlash, h]

theorem extract_of_decomp (url p slug : List Char) (hne : slug ≠ [])
    (hall : ∀ c ∈ slug, isWordOrHyphen c = true)
    (hchop : chopSlash url.reverse = slug.reverse ++ (revChapterMark ++ p.reverse)) :
    extract_chapter_number url = slug := by
  have hwall : ∀ x ∈ slug.reverse, isWordOrHyphen x = true :=
    fun x hx => hall x (List.mem_reverse.mp hx)
  have hslash : isWordOrHyphen '/' = false := by decide
  have htw : (chopSlash url.reverse).takeWhile isWordOrHyphen = slug.reverse := by
    rw [hchop]
    rw [show revChapterMark ++ p.reverse = '/' :: ("retpahc/".toList ++ p.reverse) from rfl]
    exact takeWhile_append_all isWordOrHyphen slug.reverse '/' _ hwall hslash
  have hnemp : ¬ ((slug.reverse).isEmpty = true) := by
    simp [hne]
  unfold extract_chapter_number tailRun
  rw [htw]
  rw [if_neg hnemp]
  have hdrop : (chopSlash url.reverse).drop slug.reverse.length = revChapterMark ++ p.reverse := by
    rw [hchop]
    exact List.drop_left _ _
  rw [hdrop]
  rw [if_pos (List.isPrefixOf_iff_prefix.mpr (List.prefix_append _ _))]
  exact List.reverse_reverse slug

/-- Claim C5 (amended): for every address, the derived chapter identifier is
the non-empty trailing path segment of word characters (letters, digits,
underscore) and hyphens that directly follows a `'/chapter/'` marker at the
end of the address (one optional final slash allowed), and is the sentinel
`"N/A"` exactly when no such decomposition exists. Relative to the claim as
stated, the character class also admits the underscore, as the regex class
`[\w-]` of line 95 does. -/
theorem extract_chapter_number_iff (url slug : List Char) :
    (extract_chapter_number url = slug ∧ slug ≠ naSentinel) ↔
      (slug ≠ [] ∧ (∀ c ∈ slug, isWordOrHyphen c = true) ∧
        ∃ p, url = p ++ chapterMark ++ slug ∨ url = p ++ chapterMark ++ slug ++ ['/']) := by
  constructor
  · rintro ⟨hx, hna⟩
    unfold extract_chapter_number tailRun at hx
    set r1 := chopSlash url.reverse with hr1
    set s := r1.takeWhile isWordOrHyphen with hs2
    by_cases hse : s.isEmpty
    · rw [if_pos hse] at hx
      exact absurd hx.symm hna
    · rw [if_neg hse] at hx
      by_cases hpre : revChapterMark.isPrefixOf (r1.drop s.length)
      swap
      · rw [if_neg hpre] at hx
        exact absurd hx.symm hna
      rw [if_pos hpre] at hx
      have hsne : s ≠ [] := by
        intro h0
        rw [h0] at hse
        exact hse rfl
      obtain ⟨q, hq⟩ : ∃ q, r1.drop s.length = revChapterMark ++ q := by
        obtain ⟨t, ht⟩ := List.isPrefixOf_iff_prefix.mp hpre
        exact ⟨t, ht.symm⟩
      have hdw : r1.drop s.length = r1.dropWhile isWordOrHyphen := by
        rw [hs2]
        exact drop_length_takeWhile isWordOrHyphen r1
      have hdecomp : r1 = s ++ (revChapterMark ++ q) := by
        calc r1 = s ++ r1.dropWhile isWordOrHyphen := by
              rw [hs2, List.takeWhile_append_dropWhile]
          _ = s ++ r1.drop s.length := by rw [hdw]
          _ = s ++ (revChapterMark ++ q) := by rw [hq]
      have hslug : slug = s.reverse := hx.symm
      refine ⟨?_, ?_, ?_⟩
      · rw [hslug]
        simpa using hsne
      · intro c hc
        rw [hslug, List.mem_reverse] at hc
        exact takeWhile_mem_sat isWordOrHyphen r1 c (hs2 ▸ hc)
      · cases hur : url.reverse with
        | nil =>
          exfalso
          apply hsne
          rw [hs2, hr1, hur]
          rfl
        | cons c rest =>
          by_cases hcsl : c = '/'
          · subst hcsl
            refine ⟨q.reverse, Or.inr ?_⟩
            have h1 : r1 = rest := by rw [hr1, hur, chopSlash_cons_slash]
            have h2 : url = rest.reverse ++ ['/'] := by
              conv_lhs => rw [← List.reverse_reverse url]
              rw [hur]
              simp
            rw [h2, ← h1, hdecomp, hslug]
            simp [List.reverse_append, revChapterMark, List.append_assoc]
          · refine ⟨q.reverse, Or.inl ?_⟩
            have h1 : r1 = url.reverse := by
              rw [hr1, hur]
              exact chopSlash_cons_ne c rest hcsl
            have h2 : url = r1.reverse := by
              rw [h1, List.reverse_reverse]
            rw [h2, hdecomp, hslug]
            simp [List.reverse_append, revChapterMark, List.append_assoc]
  · rintro ⟨hne, hall, p, hcase⟩
    have hnaS : slug ≠ naSentinel := by
      intro h0
      have h1 := hall '/' (by rw [h0]; decide)
      exact absurd h1 (by decide)
    refine ⟨?_, hnaS⟩
    rcases hcase with hu | hu
    · apply extract_of_decomp url p slug hne hall
      have hrev : url.reverse = slug.reverse ++ (revChapterMark ++ p.reverse) := by
        rw [hu]
        simp [List.reverse_append, revChapterMark, List.append_assoc]
      obtain ⟨c0, t0, hsr⟩ : ∃ c0 t0, slug.reverse = c0 :: t0 := by
        cases hsr : slug.reverse with
        | nil => exact absurd (by simpa using hsr) hne
        | cons a b => exact ⟨a, b, rfl⟩
      have hc0 : isWordOrHyphen c0 = true :=
        hall c0 (List.mem_reverse.mp (by rw [hsr]; exact List.mem_cons_self _ _))
      have hc0ne : ¬ c0 = '/' := by
        intro h0
        rw [h0] at hc0
        exact absurd hc0 (by decide)
      rw [hrev, hsr, List.cons_append, chopSlash_cons_ne c0 _ hc0ne, ← List.cons_append, ← hsr]
    · apply extract_of_decomp url p slug hne hall
      have hrev : url.reverse = '/' :: (slug.reverse ++ (revChapterMark ++ p.reverse)) := by
        rw [hu]
        simp [List.reverse_append, revChapterMark, List.append_assoc]
      rw [hrev, chopSlash_cons_slash]

/-- Witness for the amended C5 at the address `https://h/chapter/a_b-2/`. -/
theorem extract_chapter_number_iff_witness :
    extract_chapter_number "https://h/chapter/a_b-2/".toList = "a_b-2".toList ∧
      "a_b-2".toList ≠ naSentinel :=
  (extract_chapter_number_iff "https://h/chapter/a_b-2/".toList "a_b-2".toList).mpr
    ⟨by decide, by decide, "https://h".toList, Or.inr (by decide)⟩

/-- Claim C5 counterexample: the claim's character class is "alphanumerics
and hyphens", but the regex class `[\w-]` of line 95 also admits the
underscore: at `https://x/chapter/a_b/` the code extracts `"a_b"`, while
the pattern as claimed does not match, which per the claim would have to
give `"N/A"`. -/
theorem chapter_id_underscore_cex :
    extract_chapter_number "https://x/chapter/a_b/".toList = "a_b".toList ∧
      specChapterId "https://x/chapter/a_b/".toList = naSentinel :=
  ⟨by decide, by decide⟩
